import Mathlib

/-!
Verification development for the `rust_llm_logger` reverse proxy.

This file gives a shallow embedding, over `List Nat` byte sequences, of:
* the shared data types (`src/types.rs`),
* the Ollama NDJSON streaming parser (`src/parsers/ollama.rs`),
* the OpenAI SSE streaming parser (`src/parsers/openai.rs`),
* the passthrough parser (`src/parsers/passthrough.rs`),
* the backend detector (`src/parsers/mod.rs`),
* the stream-tee loop (`src/proxy.rs`, `handle_stream_tee`),

and proves the specification's claims about them.

External-library calls are embedded as follows: `serde_json` decoding of a
single line or data payload is an abstract parameter (`dec`), since the
parsers' control flow treats it as a black-box byte-sequence function;
`String::from_utf8_lossy` and the byte-level algorithms of `str::find`,
`str::lines`, `str::trim` (restricted to the ASCII range) and
`BytesMut::split_to` are embedded concretely, byte for byte.
-/

/-- Embedding of `TokenUsage` from `src/types.rs`: both counter fields are
optional unsigned integers (u32 embedded as `Nat`; the claims do not involve
overflow). -/
structure TokenUsage where
  prompt_tokens : Option Nat
  completion_tokens : Option Nat
deriving DecidableEq

/-- Embedding of `TokenUsage::default()`: both fields start absent. -/
def TokenUsage.init : TokenUsage := ⟨none, none⟩

/-- Embedding of `OllamaStreamResponse` from `src/types.rs`: the lenient
NDJSON line schema (`done` defaults to `false`, both counts optional). -/
structure OllamaStreamResponse where
  done : Bool
  prompt_eval_count : Option Nat
  eval_count : Option Nat
deriving DecidableEq

/-- Embedding of `OpenAIUsage` from `src/types.rs`. -/
structure OpenAIUsage where
  prompt_tokens : Nat
  completion_tokens : Nat
deriving DecidableEq

/-- Embedding of `OpenAIResponse` from `src/types.rs`. -/
structure OpenAIResponse where
  usage : Option OpenAIUsage
deriving DecidableEq

/-- Embedding of `RequestData` from `src/types.rs`. -/
structure RequestData where
  model : String
  prompt : String
  raw_body : List Nat
deriving DecidableEq

/-- Embedding of `LLMMetrics` from `src/types.rs`. -/
structure LLMMetrics where
  model : String
  prompt : String
  prompt_tokens : Option Nat
  completion_tokens : Option Nat
  latency_ms : Nat
  timestamp : String
deriving DecidableEq

/-- Byte predicate of `u8::is_ascii_whitespace` (space, tab, newline,
form feed, carriage return), used by `[u8]::trim_ascii` in the Ollama
parser. -/
def isAsciiWsByte (b : Nat) : Bool :=
  b = 9 || b = 10 || b = 12 || b = 13 || b = 32

/-- Embedding of `[u8]::trim_ascii`: drop ASCII whitespace from both ends. -/
def trimAscii (l : List Nat) : List Nat :=
  ((l.dropWhile isAsciiWsByte).reverse.dropWhile isAsciiWsByte).reverse

/-- The abstract type of the `serde_json` line decoder used by the Ollama
parser: a function from the raw bytes of one line (terminator included, as
in the source) to an optional decoded `OllamaStreamResponse`. -/
def OllamaDec : Type := List Nat → Option OllamaStreamResponse

/-- Field-by-field accumulator update performed by the Ollama parser for a
line with `done = true` (`src/parsers/ollama.rs`, lines 41-48 and 71-78): a
present count overwrites the corresponding field, an absent one leaves it. -/
def updateUsage (u : TokenUsage) (r : OllamaStreamResponse) : TokenUsage :=
  ⟨if r.prompt_eval_count.isSome then r.prompt_eval_count else u.prompt_tokens,
   if r.eval_count.isSome then r.eval_count else u.completion_tokens⟩

/-- Splitting off the first line of a buffer, as the loop head of
`OllamaParser::process_lines` does: find the first `\n` (byte 10) and
return the line including its terminator together with the rest; `none`
when the buffer holds no newline. -/
def splitFirstLine : List Nat → Option (List Nat × List Nat)
  | [] => none
  | b :: bs =>
    if b = 10 then some ([10], bs)
    else
      match splitFirstLine bs with
      | none => none
      | some (l, r) => some (b :: l, r)

/-- The body of `OllamaParser::process_lines` applied to one extracted line:
skip the line when it trims to empty; otherwise decode it, and when the
decoded value has `done = true`, perform the field-by-field update; a decode
failure leaves the accumulator unchanged. -/
def applyOllamaLine (dec : OllamaDec) (u : TokenUsage) (line : List Nat) : TokenUsage :=
  if trimAscii line = [] then u
  else
    match dec line with
    | some r => if r.done then updateUsage u r else u
    | none => u

/-- Fuel-indexed loop of `OllamaParser::process_lines`: while the buffer has
a newline, split off one line and apply it to the accumulator. Each
iteration removes at least one byte, so fuel equal to the buffer length is
always sufficient. -/
def processLinesGo (dec : OllamaDec) : Nat → TokenUsage → List Nat → TokenUsage × List Nat
  | 0, u, buf => (u, buf)
  | fuel + 1, u, buf =>
    match splitFirstLine buf with
    | none => (u, buf)
    | some (l, r) => processLinesGo dec fuel (applyOllamaLine dec u l) r

/-- Embedding of `OllamaParser::process_lines`: returns the accumulator and
the remaining (newline-free) buffer. -/
def processLines (dec : OllamaDec) (u : TokenUsage) (buf : List Nat) : TokenUsage × List Nat :=
  processLinesGo dec buf.length u buf

/-- Embedding of the `OllamaParser` struct: its growable buffer and its
accumulator. -/
structure OllamaState where
  buffer : List Nat
  token_usage : TokenUsage
deriving DecidableEq

/-- Embedding of `OllamaParser::new()`. -/
def ollamaInit : OllamaState := ⟨[], TokenUsage.init⟩

/-- Embedding of `OllamaParser::feed_chunk`: append the chunk to the buffer
and process all complete lines. -/
def ollamaFeedChunk (dec : OllamaDec) (s : OllamaState) (c : List Nat) : OllamaState :=
  let p := processLines dec s.token_usage (s.buffer ++ c)
  ⟨p.2, p.1⟩

/-- Feeding a list of chunks in order. -/
def ollamaFeedAll (dec : OllamaDec) : OllamaState → List (List Nat) → OllamaState
  | s, [] => s
  | s, c :: cs => ollamaFeedAll dec (ollamaFeedChunk dec s c) cs

/-- Embedding of `OllamaParser::finalize`: one additional decode attempt on
a non-empty unterminated remainder, with the same `done`-gated update rule,
then return the accumulator. -/
def ollamaFinalize (dec : OllamaDec) (s : OllamaState) : TokenUsage :=
  if s.buffer = [] then s.token_usage
  else
    match dec s.buffer with
    | some r => if r.done then updateUsage s.token_usage r else s.token_usage
    | none => s.token_usage

/-- A concrete instance of the abstract Ollama line decoder, used only to
instantiate universally quantified theorems on closed inputs: it recognizes
the one-byte line `t\n` as a terminal `done = true` record carrying only
`eval_count = 42`, and the one-byte line `f\n` as a non-terminal record. -/
def decOllamaW : OllamaDec := fun l =>
  if l = [116, 10] then some ⟨true, none, some 42⟩
  else if l = [102, 10] then some ⟨false, some 5, some 5⟩
  else none

/-- Embedding of `PassthroughParser::feed_chunk` from
`src/parsers/passthrough.rs`: the parser is stateless (a unit struct) and
feeding does nothing. -/
def passthroughFeedChunk (s : Unit) (_c : List Nat) : Unit := s

/-- Feeding a list of chunks in order to the passthrough parser. -/
def passthroughFeedAll : Unit → List (List Nat) → Unit
  | s, [] => s
  | s, c :: cs => passthroughFeedAll (passthroughFeedChunk s c) cs

/-- Embedding of `PassthroughParser::finalize`: returns
`TokenUsage::default()`. -/
def passthroughFinalize (_s : Unit) : TokenUsage := TokenUsage.init

/-- Whether `pat` is a leading segment of `hay` (byte-for-byte), the inner
step of the `str::contains` substring search. -/
def startsWithPat : List Nat → List Nat → Bool
  | _, [] => true
  | [], _ :: _ => false
  | a :: hs, b :: ps => a == b && startsWithPat hs ps

/-- Embedding of `str::contains(&str)`: case-sensitive substring occurrence
(on UTF-8 byte sequences, a byte-level occurrence of a valid pattern always
falls on character boundaries, so the byte-level search coincides with the
string-level one). -/
def containsSub : List Nat → List Nat → Bool
  | [], pat => pat.isEmpty
  | a :: t, pat => startsWithPat (a :: t) pat || containsSub t pat

/-- The UTF-8 bytes of an ASCII string literal. -/
def strBytes (s : String) : List Nat := s.data.map Char.toNat

/-- Embedding of `BackendType` from `src/parsers/mod.rs`. -/
inductive BackendType
  | Ollama
  | OpenAI
  | Unknown
deriving DecidableEq

/-- Embedding of `detect_backend_type` from `src/parsers/mod.rs`: substring
match on the content-type, first match winning. -/
def detect_backend_type (ct : List Nat) : BackendType :=
  if containsSub ct (strBytes "application/x-ndjson")
      || containsSub ct (strBytes "application/json") then
    BackendType.Ollama
  else if containsSub ct (strBytes "text/event-stream") then
    BackendType.OpenAI
  else
    BackendType.Unknown

/-- Byte predicate for the ASCII-range characters trimmed by `str::trim`
(tab, line feed, vertical tab, form feed, carriage return, space). The
OpenAI parser trims decoded (hence UTF-8-valid) lines; this embedding
restricts `char::is_whitespace` to the ASCII range. -/
def isWsByte (b : Nat) : Bool :=
  b = 9 || b = 10 || b = 11 || b = 12 || b = 13 || b = 32

/-- Embedding of `str::trim` (ASCII range): drop whitespace from both
ends. -/
def trimWs (l : List Nat) : List Nat :=
  ((l.dropWhile isWsByte).reverse.dropWhile isWsByte).reverse

/-- The UTF-8 encoding of U+FFFD, the replacement character emitted by
`String::from_utf8_lossy` for each invalid sequence. -/
def fffd : List Nat := [239, 191, 189]

/-- Whether a byte is a UTF-8 continuation byte (`0x80..=0xBF`). -/
def isCont (b : Nat) : Bool := 128 ≤ b && b ≤ 191

/-- Admissible first continuation byte after a three-byte lead: `0xE0`
requires `0xA0..=0xBF`, `0xED` requires `0x80..=0x9F`, the rest accept any
continuation byte. -/
def cont1Ok3 (lead c : Nat) : Bool :=
  if lead = 224 then 160 ≤ c && c ≤ 191
  else if lead = 237 then 128 ≤ c && c ≤ 159
  else isCont c

/-- Admissible first continuation byte after a four-byte lead: `0xF0`
requires `0x90..=0xBF`, `0xF4` requires `0x80..=0x8F`, the rest accept any
continuation byte. -/
def cont1Ok4 (lead c : Nat) : Bool :=
  if lead = 240 then 144 ≤ c && c ≤ 191
  else if lead = 244 then 128 ≤ c && c ≤ 143
  else isCont c

/-- Fuel-indexed loop of `String::from_utf8_lossy`, producing the UTF-8
bytes of the resulting string: valid sequences are copied through, and each
maximal invalid subpart (one to three bytes) is replaced by U+FFFD. Every
iteration consumes at least one input byte, so fuel equal to the input
length is always sufficient. -/
def utf8LossyGo : Nat → List Nat → List Nat
  | 0, _ => []
  | _ + 1, [] => []
  | fuel + 1, b :: bs =>
    if b ≤ 127 then b :: utf8LossyGo fuel bs
    else if 194 ≤ b && b ≤ 223 then
      match bs with
      | [] => fffd
      | c1 :: r1 =>
        if isCont c1 then b :: c1 :: utf8LossyGo fuel r1
        else fffd ++ utf8LossyGo fuel bs
    else if 224 ≤ b && b ≤ 239 then
      match bs with
      | [] => fffd
      | c1 :: r1 =>
        if cont1Ok3 b c1 then
          match r1 with
          | [] => fffd
          | c2 :: r2 =>
            if isCont c2 then b :: c1 :: c2 :: utf8LossyGo fuel r2
            else fffd ++ utf8LossyGo fuel r1
        else fffd ++ utf8LossyGo fuel bs
    else if 240 ≤ b && b ≤ 244 then
      match bs with
      | [] => fffd
      | c1 :: r1 =>
        if cont1Ok4 b c1 then
          match r1 with
          | [] => fffd
          | c2 :: r2 =>
            if isCont c2 then
              match r2 with
              | [] => fffd
              | c3 :: r3 =>
                if isCont c3 then b :: c1 :: c2 :: c3 :: utf8LossyGo fuel r3
                else fffd ++ utf8LossyGo fuel r2
            else fffd ++ utf8LossyGo fuel r1
          else fffd ++ utf8LossyGo fuel bs
    else fffd ++ utf8LossyGo fuel bs

/-- Embedding of `String::from_utf8_lossy`, as the byte sequence of the
resulting string. -/
def utf8Lossy (l : List Nat) : List Nat := utf8LossyGo l.length l

/-- Embedding of `str::find("\n\n")` on the byte sequence of a string: the
byte index of the first occurrence of two consecutive `\n` bytes (for UTF-8
input, byte positions of an ASCII pattern coincide with `str::find`'s byte
indices). -/
def strFindNN : List Nat → Option Nat
  | 10 :: 10 :: _ => some 0
  | _ :: bs => (strFindNN bs).map (· + 1)
  | [] => none

/-- Split a byte string at every `\n`, keeping all segments (the splitting
step of `str::lines`). -/
def splitOnNl : List Nat → List (List Nat)
  | [] => [[]]
  | 10 :: bs => [] :: splitOnNl bs
  | b :: bs =>
    match splitOnNl bs with
    | l :: ls => (b :: l) :: ls
    | [] => [[b]]

/-- Drop one trailing carriage return, as `str::lines` does per line. -/
def stripCR (l : List Nat) : List Nat :=
  if l.getLast? = some 13 then l.dropLast else l

/-- Embedding of `str::lines`: split at `\n`, omit the final empty segment
(a trailing line terminator produces no extra line), and strip one trailing
`\r` from each line. -/
def splitLines (s : List Nat) : List (List Nat) :=
  match s with
  | [] => []
  | _ =>
    let segs := splitOnNl s
    let segs := if segs.getLast? = some [] then segs.dropLast else segs
    segs.map stripCR

/-- The bytes of the `"data: "` line tag. -/
def dataTagBytes : List Nat := [100, 97, 116, 97, 58, 32]

/-- The bytes of the `"[DONE]"` sentinel payload. -/
def doneMark : List Nat := [91, 68, 79, 78, 69, 93]

/-- The bytes of the full `"data: [DONE]"` sentinel line. -/
def dataDoneBytes : List Nat := [100, 97, 116, 97, 58, 32, 91, 68, 79, 78, 69, 93]

/-- Embedding of `str::strip_prefix("data: ")`: the payload after the
`data: ` tag, when the line starts with it. -/
def stripDataTag : List Nat → Option (List Nat)
  | 100 :: 97 :: 116 :: 97 :: 58 :: 32 :: d => some d
  | _ => none

/-- The abstract type of the `serde_json` payload decoder used by the
OpenAI parser: from the bytes after `data: ` to an optional decoded
`OpenAIResponse`. -/
def OpenAIDec : Type := List Nat → Option OpenAIResponse

/-- The per-line body of `OpenAIParser::process_events`
(`src/parsers/openai.rs`, lines 37-69): trim the line; skip it when empty,
a comment (leading `:`), or the `data: [DONE]` sentinel; otherwise, for a
`data: ` line whose payload decodes to a response carrying a `usage`
object, replace both accumulator fields with the decoded counts; any other
line leaves the accumulator unchanged. -/
def applyEventLine (dec : OpenAIDec) (u : TokenUsage) (line : List Nat) : TokenUsage :=
  let t := trimWs line
  if t = [] then u
  else if t.head? = some 58 then u
  else if t = dataDoneBytes then u
  else
    match stripDataTag t with
    | some d =>
      match dec d with
      | some resp =>
        match resp.usage with
        | some usage => ⟨some usage.prompt_tokens, some usage.completion_tokens⟩
        | none => u
      | none => u
    | none => u

/-- Processing of one extracted event block: decode it lossily, split it
into lines and fold the per-line body over the accumulator. -/
def processBlock (dec : OpenAIDec) (u : TokenUsage) (block : List Nat) : TokenUsage :=
  (splitLines (utf8Lossy block)).foldl (applyEventLine dec) u

/-- Embedding of the `OpenAIParser` struct: its growable buffer and its
accumulator. -/
structure OpenAIState where
  buffer : List Nat
  token_usage : TokenUsage
deriving DecidableEq

/-- Embedding of `OpenAIParser::new()`. -/
def openaiInit : OpenAIState := ⟨[], TokenUsage.init⟩

/-- Fuel-indexed loop of `OpenAIParser::process_events`: while
`str::find("\n\n")` on the lossy decoding of the buffer succeeds at byte
index `pos`, split the RAW buffer at `pos + 2` (exactly as
`BytesMut::split_to(pos + 2)` does) and process the removed block. When
`pos + 2` exceeds the raw buffer length — possible because the lossy string
may be longer than the raw bytes — `split_to` panics; the embedding returns
`none` for that panic. Each successful iteration removes at least two
bytes, so fuel equal to the buffer length is always sufficient. -/
def processEventsGo (dec : OpenAIDec) : Nat → OpenAIState → Option OpenAIState
  | 0, s => some s
  | fuel + 1, s =>
    match strFindNN (utf8Lossy s.buffer) with
    | none => some s
    | some pos =>
      if pos + 2 ≤ s.buffer.length then
        processEventsGo dec fuel
          ⟨s.buffer.drop (pos + 2),
           processBlock dec s.token_usage (s.buffer.take (pos + 2))⟩
      else none

/-- Embedding of `OpenAIParser::process_events`. -/
def processEvents (dec : OpenAIDec) (s : OpenAIState) : Option OpenAIState :=
  processEventsGo dec s.buffer.length s

/-- Embedding of `OpenAIParser::feed_chunk`: append the chunk to the buffer
and process complete event blocks (`none` when the processing panics). -/
def openaiFeedChunk (dec : OpenAIDec) (s : OpenAIState) (c : List Nat) : Option OpenAIState :=
  processEvents dec ⟨s.buffer ++ c, s.token_usage⟩

/-- Feeding a list of chunks in order to the OpenAI parser. -/
def openaiFeedAll (dec : OpenAIDec) : OpenAIState → List (List Nat) → Option OpenAIState
  | s, [] => some s
  | s, c :: cs =>
    match openaiFeedChunk dec s c with
    | some s' => openaiFeedAll dec s' cs
    | none => none

/-- Embedding of `OpenAIParser::finalize`: re-run the event-block scan on
the residual buffer, then return the accumulator (`none` when the scan
panics). -/
def openaiFinalize (dec : OpenAIDec) (s : OpenAIState) : Option TokenUsage :=
  (processEvents dec s).map OpenAIState.token_usage

/-- A concrete instance of the abstract OpenAI payload decoder, used only
to instantiate universally quantified theorems on closed inputs: the
payload `u` (byte 117) decodes to a response with usage `(12, 7)`, and any
other payload fails to decode. -/
def decOpenAIW : OpenAIDec := fun d =>
  if d = [117] then some ⟨some ⟨12, 7⟩⟩ else none

/-- The always-failing payload decoder, for closed instantiations where the
decoded value is irrelevant. -/
def decOpenAINone : OpenAIDec := fun _ => none

/-- One item of the upstream response body consumed by the tee loop in
`handle_stream_tee` (`src/proxy.rs`): a frame whose `into_data()` yields
byte data, a non-data frame (e.g. trailers, skipped by the loop), or an
upstream read error. End of stream is the end of the list. -/
inductive UpItem
  | frame (data : Option (List Nat))
  | uperr
deriving DecidableEq

/-- Which of the three exits terminated the tee loop. -/
inductive TeeExit
  | endOfStream
  | disconnect
  | upstreamErr
deriving DecidableEq

/-- Observable actions of the tee, in program order: a chunk fed to the
parser, a chunk delivered to the client channel, the best-effort error
indicator, and the single post-loop finalize call. -/
inductive TeeAct
  | feedAct (c : List Nat)
  | deliverAct (c : List Nat)
  | deliverErrAct
  | finalizeAct
deriving DecidableEq

/-- Boolean recognizer for the finalize action. -/
def isFinalizeAct : TeeAct → Bool
  | TeeAct.finalizeAct => true
  | _ => false

/-- Result of the tee loop: final parser state, the chunks fed to the
parser, the chunks delivered to the client channel, whether the terminal
error indicator was delivered, the action trace, and the exit taken. -/
structure TeeOut (σ : Type) where
  parserSt : σ
  fed : List (List Nat)
  sent : List (List Nat)
  errSent : Bool
  trace : List TeeAct
  exit : TeeExit

/-- Embedding of the loop of `handle_stream_tee` (`src/proxy.rs`, lines
128-155), generic over the selected parser's state and trait-level
`feed_chunk` function (the trait promises a total feed; the OpenAI panic of
claim C10 is treated separately). The client channel is modelled by `d`,
the number of sends that will still succeed before the receiver is dropped
— once a send fails every later send fails, as for a dropped `mpsc`
receiver. Per data frame the loop first feeds the parser, then attempts
delivery; a failed delivery (client disconnect) breaks the loop. A non-data
frame is skipped. An upstream error delivers one best-effort error
indicator (successful only if the receiver is still present) and breaks. -/
def teeLoop {σ : Type} (feedFn : σ → List Nat → σ) :
    List UpItem → Nat → σ → TeeOut σ
  | [], _, s => ⟨s, [], [], false, [], TeeExit.endOfStream⟩
  | UpItem.frame none :: rest, d, s => teeLoop feedFn rest d s
  | UpItem.frame (some data) :: rest, d, s =>
    let s' := feedFn s data
    match d with
    | 0 => ⟨s', [data], [], false, [TeeAct.feedAct data], TeeExit.disconnect⟩
    | d' + 1 =>
      let r := teeLoop feedFn rest d' s'
      ⟨r.parserSt, data :: r.fed, data :: r.sent, r.errSent,
       TeeAct.feedAct data :: TeeAct.deliverAct data :: r.trace, r.exit⟩
  | UpItem.uperr :: _, d, s =>
    ⟨s, [], [], decide (0 < d), [TeeAct.deliverErrAct], TeeExit.upstreamErr⟩

/-- Embedding of `handle_stream_tee` after the loop: finalize the parser
exactly once, and when `RequestData` is present build the `LLMMetrics`
record from it, the finalized usage, the measured latency and the capture
timestamp (the latter two are environment inputs, passed as parameters).
Returns the loop output with the finalize action appended to the trace, the
finalized usage, and the optional metrics record. -/
def teeRun {σ : Type} (feedFn : σ → List Nat → σ) (finFn : σ → TokenUsage)
    (events : List UpItem) (d : Nat) (s₀ : σ) (rd : Option RequestData)
    (latency : Nat) (ts : String) : TeeOut σ × TokenUsage × Option LLMMetrics :=
  let r := teeLoop feedFn events d s₀
  let u := finFn r.parserSt
  ({ r with trace := r.trace ++ [TeeAct.finalizeAct] }, u,
    rd.map fun q =>
      ⟨q.model, q.prompt, u.prompt_tokens, u.completion_tokens, latency, ts⟩)

/-- Presence-monotonicity between two accumulator snapshots: any field
present in the first is still present in the second (the spec's "an update
must never revert a present value to absent"). -/
def usageMono (u v : TokenUsage) : Prop :=
  (u.prompt_tokens.isSome = true → v.prompt_tokens.isSome = true)
  ∧ (u.completion_tokens.isSome = true → v.completion_tokens.isSome = true)

theorem splitFirstLine_decomp : ∀ {buf l r : List Nat},
    splitFirstLine buf = some (l, r) → buf = l ++ r ∧ l ≠ [] := by
  intro buf
  induction buf with
  | nil => intro l r h; simp [splitFirstLine] at h
  | cons b bs ih =>
    intro l r h
    by_cases hb : b = 10
    · subst hb
      simp [splitFirstLine] at h
      obtain ⟨hl, hr⟩ := h
      subst hl; subst hr
      exact ⟨rfl, by simp⟩
    · simp [splitFirstLine, hb] at h
      cases hsplit : splitFirstLine bs with
      | none => rw [hsplit] at h; simp at h
      | some p =>
        obtain ⟨l', r'⟩ := p
        rw [hsplit] at h
        simp at h
        obtain ⟨hl, hr⟩ := h
        obtain ⟨hbs, _⟩ := ih hsplit
        subst hl; subst hr
        constructor
        · simp [hbs]
        · simp

theorem splitFirstLine_rest_lt {buf l r : List Nat}
    (h : splitFirstLine buf = some (l, r)) : r.length < buf.length := by
  obtain ⟨hbuf, hl⟩ := splitFirstLine_decomp h
  subst hbuf
  have : 0 < l.length := List.length_pos.mpr hl
  simp [List.length_append]
  omega

theorem splitFirstLine_append {x l r : List Nat} (y : List Nat)
    (h : splitFirstLine x = some (l, r)) :
    splitFirstLine (x ++ y) = some (l, r ++ y) := by
  induction x generalizing l r with
  | nil => simp [splitFirstLine] at h
  | cons b bs ih =>
    by_cases hb : b = 10
    · subst hb
      simp [splitFirstLine] at h ⊢
      obtain ⟨hl, hr⟩ := h
      subst hl; subst hr
      simp
    · simp [splitFirstLine, hb] at h ⊢
      cases hsplit : splitFirstLine bs with
      | none => rw [hsplit] at h; simp at h
      | some p =>
        obtain ⟨l', r'⟩ := p
        rw [hsplit] at h
        simp at h
        obtain ⟨hl, hr⟩ := h
        subst hl; subst hr
        rw [ih hsplit]

theorem processLinesGo_fuel (dec : OllamaDec) :
    ∀ n m u (buf : List Nat), buf.length ≤ n → buf.length ≤ m →
      processLinesGo dec n u buf = processLinesGo dec m u buf := by
  intro n
  induction n with
  | zero =>
    intro m u buf hn _
    have : buf = [] := List.length_eq_zero.mp (Nat.le_zero.mp hn)
    subst this
    cases m with
    | zero => rfl
    | succ m' => simp [processLinesGo, splitFirstLine]
  | succ n' ih =>
    intro m u buf _ hm
    cases m with
    | zero =>
      have : buf = [] := List.length_eq_zero.mp (Nat.le_zero.mp hm)
      subst this
      simp [processLinesGo, splitFirstLine]
    | succ m' =>
      simp only [processLinesGo]
      cases hsplit : splitFirstLine buf with
      | none => rfl
      | some p =>
        obtain ⟨l, r⟩ := p
        have hlt := splitFirstLine_rest_lt hsplit
        exact ih m' (applyOllamaLine dec u l) r (by omega) (by omega)

theorem processLines_eq (dec : OllamaDec) (u : TokenUsage) (buf : List Nat) :
    processLines dec u buf =
      match splitFirstLine buf with
      | none => (u, buf)
      | some (l, r) => processLines dec (applyOllamaLine dec u l) r := by
  cases buf with
  | nil => rfl
  | cons b bs =>
    show processLinesGo dec (bs.length + 1) u (b :: bs) = _
    simp only [processLinesGo]
    cases hsplit : splitFirstLine (b :: bs) with
    | none => rfl
    | some p =>
      obtain ⟨l, r⟩ := p
      have hlt := splitFirstLine_rest_lt hsplit
      exact processLinesGo_fuel dec bs.length r.length _ r
        (by simp at hlt; omega) (le_refl _)

theorem processLines_nil (dec : OllamaDec) (u : TokenUsage) :
    processLines dec u [] = (u, []) := rfl

theorem processLines_append (dec : OllamaDec) (u : TokenUsage) (x y : List Nat) :
    processLines dec u (x ++ y) =
      processLines dec (processLines dec u x).1 ((processLines dec u x).2 ++ y) := by
  have main : ∀ n u (x : List Nat), x.length ≤ n →
      processLines dec u (x ++ y) =
        processLines dec (processLines dec u x).1 ((processLines dec u x).2 ++ y) := by
    intro n
    induction n with
    | zero =>
      intro u x hx
      have : x = [] := List.length_eq_zero.mp (Nat.le_zero.mp hx)
      subst this
      simp [processLines_nil]
    | succ n' ih =>
      intro u x hx
      cases hsplit : splitFirstLine x with
      | none =>
        have hx0 : processLines dec u x = (u, x) := by
          rw [processLines_eq, hsplit]
        rw [hx0]
      | some p =>
        obtain ⟨l, r⟩ := p
        have hlt := splitFirstLine_rest_lt hsplit
        have h1 : processLines dec u (x ++ y) =
            processLines dec (applyOllamaLine dec u l) (r ++ y) := by
          rw [processLines_eq, splitFirstLine_append y hsplit]
        have h2 : processLines dec u x =
            processLines dec (applyOllamaLine dec u l) r := by
          rw [processLines_eq dec u x, hsplit]
        rw [h1, h2, ih (applyOllamaLine dec u l) r (by omega)]
  exact main x.length u x (le_refl _)

theorem ollamaFeedChunk_append (dec : OllamaDec) (s : OllamaState) (a b : List Nat) :
    ollamaFeedChunk dec (ollamaFeedChunk dec s a) b = ollamaFeedChunk dec s (a ++ b) := by
  simp only [ollamaFeedChunk]
  rw [← List.append_assoc, processLines_append dec s.token_usage (s.buffer ++ a) b]

theorem ollamaFeedAll_join (dec : OllamaDec) :
    ∀ (cs : List (List Nat)) (s : OllamaState) (a : List Nat),
      ollamaFeedAll dec (ollamaFeedChunk dec s a) cs = ollamaFeedChunk dec s (a ++ cs.flatten) := by
  intro cs
  induction cs with
  | nil => intro s a; simp [ollamaFeedAll]
  | cons c cs' ih =>
    intro s a
    simp only [ollamaFeedAll, List.flatten]
    rw [ollamaFeedChunk_append, ih, List.append_assoc]

/-- Claim C2: for every abstract line decoder and every splitting of an
Ollama NDJSON stream into chunks (including splits mid-line), feeding the
chunks one at a time and finalizing yields the same `TokenUsage` as feeding
the whole byte sequence as one single chunk and finalizing. -/
theorem ollama_chunking_invariance (dec : OllamaDec) (chunks : List (List Nat)) :
    ollamaFinalize dec (ollamaFeedAll dec ollamaInit chunks) =
      ollamaFinalize dec (ollamaFeedChunk dec ollamaInit chunks.flatten) := by
  cases chunks with
  | nil => rfl
  | cons c cs =>
    simp only [ollamaFeedAll, List.flatten]
    rw [ollamaFeedAll_join]

theorem splitFirstLine_no_nl {x : List Nat} (h : (10 : Nat) ∉ x) :
    splitFirstLine (x ++ [10]) = some (x ++ [10], []) := by
  induction x with
  | nil => rfl
  | cons b bs ih =>
    have hb : b ≠ 10 := fun hc => h (hc ▸ List.mem_cons_self b bs)
    have hbs : (10 : Nat) ∉ bs := fun hc => h (List.mem_cons_of_mem b hc)
    simp [splitFirstLine, hb, ih hbs]

/-- Claim C3: in the Ollama parser, only a decoded line with `done = true`
updates the accumulator, and the update is field-by-field — a present
`prompt_eval_count` overwrites `prompt_tokens`, a present `eval_count`
overwrites `completion_tokens`, and an absent field leaves the prior
accumulator value unchanged; in particular a terminal `done = true` line
carrying `eval_count = n` but no `prompt_eval_count` finalizes, from a fresh
parser, to `completion_tokens = n` with `prompt_tokens` absent. -/
theorem ollama_done_gated_update :
    (∀ (dec : OllamaDec) (u : TokenUsage) (line : List Nat),
        (dec line = none ∨ ∃ r, dec line = some r ∧ r.done = false) →
        applyOllamaLine dec u line = u)
    ∧ (∀ (dec : OllamaDec) (u : TokenUsage) (line : List Nat) (r : OllamaStreamResponse),
        dec line = some r → r.done = true → trimAscii line ≠ [] →
          ((∀ v, r.prompt_eval_count = some v →
              (applyOllamaLine dec u line).prompt_tokens = some v)
          ∧ (r.prompt_eval_count = none →
              (applyOllamaLine dec u line).prompt_tokens = u.prompt_tokens)
          ∧ (∀ v, r.eval_count = some v →
              (applyOllamaLine dec u line).completion_tokens = some v)
          ∧ (r.eval_count = none →
              (applyOllamaLine dec u line).completion_tokens = u.completion_tokens)))
    ∧ (∀ (dec : OllamaDec) (line : List Nat) (n : Nat),
        (10 : Nat) ∉ line →
        dec (line ++ [10]) = some ⟨true, none, some n⟩ →
        trimAscii (line ++ [10]) ≠ [] →
        ollamaFinalize dec (ollamaFeedChunk dec ollamaInit (line ++ [10])) =
          ⟨none, some n⟩) := by
  refine ⟨?_, ?_, ?_⟩
  · intro dec u line h
    rcases h with h | ⟨r, hr, hdone⟩
    · simp [applyOllamaLine, h]
    · simp [applyOllamaLine, hr, hdone]
  · intro dec u line r hdec hdone htrim
    have happly : applyOllamaLine dec u line = updateUsage u r := by
      simp [applyOllamaLine, htrim, hdec, hdone]
    refine ⟨?_, ?_, ?_, ?_⟩
    · intro v hv; simp [happly, updateUsage, hv]
    · intro hv; simp [happly, updateUsage, hv]
    · intro v hv; simp [happly, updateUsage, hv]
    · intro hv; simp [happly, updateUsage, hv]
  · intro dec line n hnl hdec htrim
    have hfeed : ollamaFeedChunk dec ollamaInit (line ++ [10]) =
        ⟨[], ⟨none, some n⟩⟩ := by
      have hsplit := splitFirstLine_no_nl hnl
      have happly : applyOllamaLine dec TokenUsage.init (line ++ [10]) =
          ⟨none, some n⟩ := by
        simp [applyOllamaLine, htrim, hdec, updateUsage, TokenUsage.init]
      simp only [ollamaFeedChunk, ollamaInit, List.nil_append]
      rw [processLines_eq, hsplit]
      simp only [happly, processLines_nil]
    rw [hfeed]
    rfl

/-- Witness for C3: the conjuncts of `ollama_done_gated_update` evaluated at
the concrete decoder `decOllamaW` and concrete lines. -/
theorem ollama_done_gated_update_witness :
    applyOllamaLine decOllamaW ⟨some 1, some 2⟩ [102, 10] = ⟨some 1, some 2⟩
    ∧ (applyOllamaLine decOllamaW ⟨some 7, none⟩ [116, 10]).completion_tokens = some 42
    ∧ (applyOllamaLine decOllamaW ⟨some 7, none⟩ [116, 10]).prompt_tokens = some 7
    ∧ ollamaFinalize decOllamaW (ollamaFeedChunk decOllamaW ollamaInit ([116] ++ [10])) =
        ⟨none, some 42⟩ := by
  refine ⟨?_, ?_, ?_, ?_⟩
  · exact ollama_done_gated_update.1 decOllamaW ⟨some 1, some 2⟩ [102, 10]
      (Or.inr ⟨⟨false, some 5, some 5⟩, by decide, rfl⟩)
  · exact (ollama_done_gated_update.2.1 decOllamaW ⟨some 7, none⟩ [116, 10]
      ⟨true, none, some 42⟩ (by decide) rfl (by decide)).2.2.1 42 rfl
  · exact (ollama_done_gated_update.2.1 decOllamaW ⟨some 7, none⟩ [116, 10]
      ⟨true, none, some 42⟩ (by decide) rfl (by decide)).2.1 rfl
  · exact ollama_done_gated_update.2.2 decOllamaW [116] 42 (by decide) (by decide)
      (by decide)

/-- Claim C9: for every sequence of fed chunks, including the empty
sequence, the passthrough parser's finalize returns a `TokenUsage` with
both `prompt_tokens` and `completion_tokens` absent. -/
theorem passthrough_finalize_absent (chunks : List (List Nat)) :
    passthroughFinalize (passthroughFeedAll () chunks) = ⟨none, none⟩ := rfl

/-- Claim C8: content-type classification is a case-sensitive substring
match with first match winning — a content-type containing
`application/x-ndjson` or `application/json` maps to Ollama; otherwise one
containing `text/event-stream` maps to OpenAI; any other maps to Unknown.
The closed conjuncts check the spec's scenarios, first-match priority, and
case sensitivity. -/
theorem detect_backend_classification :
    (∀ ct, (containsSub ct (strBytes "application/x-ndjson")
         || containsSub ct (strBytes "application/json")) = true →
        detect_backend_type ct = BackendType.Ollama)
    ∧ (∀ ct, (containsSub ct (strBytes "application/x-ndjson")
          || containsSub ct (strBytes "application/json")) = false →
        containsSub ct (strBytes "text/event-stream") = true →
        detect_backend_type ct = BackendType.OpenAI)
    ∧ (∀ ct, (containsSub ct (strBytes "application/x-ndjson")
          || containsSub ct (strBytes "application/json")) = false →
        containsSub ct (strBytes "text/event-stream") = false →
        detect_backend_type ct = BackendType.Unknown)
    ∧ detect_backend_type (strBytes "application/x-ndjson") = BackendType.Ollama
    ∧ detect_backend_type (strBytes "text/event-stream") = BackendType.OpenAI
    ∧ detect_backend_type (strBytes "text/plain") = BackendType.Unknown
    ∧ detect_backend_type (strBytes "application/json; text/event-stream")
        = BackendType.Ollama
    ∧ detect_backend_type (strBytes "TEXT/EVENT-STREAM") = BackendType.Unknown := by
  refine ⟨?_, ?_, ?_, by decide, by decide, by decide, by decide, by decide⟩
  · intro ct h
    simp [detect_backend_type, h]
  · intro ct h1 h2
    simp [detect_backend_type, h1, h2]
  · intro ct h1 h2
    simp [detect_backend_type, h1, h2]

/-- Witness for C8: the conditional conjuncts of
`detect_backend_classification` applied at concrete content-types. -/
theorem detect_backend_classification_witness :
    detect_backend_type (strBytes "application/json") = BackendType.Ollama
    ∧ detect_backend_type (strBytes "x text/event-stream y") = BackendType.OpenAI
    ∧ detect_backend_type (strBytes "application/ndjson") = BackendType.Unknown := by
  refine ⟨?_, ?_, ?_⟩
  · exact detect_backend_classification.1 (strBytes "application/json") (by decide)
  · exact detect_backend_classification.2.1 (strBytes "x text/event-stream y")
      (by decide) (by decide)
  · exact detect_backend_classification.2.2.1 (strBytes "application/ndjson")
      (by decide) (by decide)

/-- Claim C10 (exhibiting the code bug): on the chunk `[0xFF, \n, \n]` the
lossy decoding of the buffer is two bytes longer than the raw buffer, the
`\n\n` search on it yields byte index 3, `split_to(3 + 2)` is out of bounds
for the 3-byte raw buffer, and `feed_chunk` (and a `finalize` reaching the
same scan) panics — embedded as returning `none`. -/
theorem openai_lossy_index_overrun :
    strFindNN (utf8Lossy [255, 10, 10]) = some 3
    ∧ ([255, 10, 10] : List Nat).length = 3
    ∧ openaiFeedChunk decOpenAINone openaiInit [255, 10, 10] = none
    ∧ openaiFinalize decOpenAINone ⟨[255, 10, 10], TokenUsage.init⟩ = none := by
  decide

/-- Claim C4: whenever a decoded `data: ` line carries a `usage` object,
the OpenAI parser replaces both accumulator fields unconditionally with the
decoded counts, regardless of the previously accumulated values — including
when the same usage-bearing line is processed twice. -/
theorem openai_usage_replaces_unconditionally (dec : OpenAIDec) (u : TokenUsage)
    (line d : List Nat) (p c : Nat) (resp : OpenAIResponse)
    (ht : trimWs line = dataTagBytes ++ d) (hd : d ≠ doneMark)
    (hdec : dec d = some resp) (hu : resp.usage = some ⟨p, c⟩) :
    applyEventLine dec u line = ⟨some p, some c⟩
    ∧ applyEventLine dec (applyEventLine dec u line) line = ⟨some p, some c⟩ := by
  have hd' : d ≠ [91, 68, 79, 78, 69, 93] := by simpa [doneMark] using hd
  have key : ∀ u', applyEventLine dec u' line = ⟨some p, some c⟩ := by
    intro u'
    simp [applyEventLine, ht, dataTagBytes, dataDoneBytes, stripDataTag, hd', hdec, hu]
  exact ⟨key u, by simp [key]⟩

/-- Witness for C4: `openai_usage_replaces_unconditionally` at the concrete
decoder `decOpenAIW`, the line `data: u`, and a previously non-empty
accumulator. -/
theorem openai_usage_replaces_unconditionally_witness :
    applyEventLine decOpenAIW ⟨some 99, some 99⟩ (strBytes "data: u") = ⟨some 12, some 7⟩ :=
  (openai_usage_replaces_unconditionally decOpenAIW ⟨some 99, some 99⟩
    (strBytes "data: u") [117] 12 7 ⟨some ⟨12, 7⟩⟩
    (by decide) (by decide) (by decide) rfl).1

/-- Counterexample for C5: feeding the single chunk `data: u\n` — a final
event block missing its second trailing line-break — leaves the block
buffered, and `finalize` returns the accumulator with both fields absent,
even though the buffered line carries a decodable `usage` object (third
conjunct): the trailing block's usage is NOT applied, contrary to the
claim. -/
theorem openai_finalize_trailing_block_cex :
    openaiFeedAll decOpenAIW openaiInit [strBytes "data: u" ++ [10]] =
      some ⟨strBytes "data: u" ++ [10], ⟨none, none⟩⟩
    ∧ openaiFinalize decOpenAIW ⟨strBytes "data: u" ++ [10], ⟨none, none⟩⟩ =
      some ⟨none, none⟩
    ∧ applyEventLine decOpenAIW ⟨none, none⟩ (strBytes "data: u") = ⟨some 12, some 7⟩
    ∧ (⟨none, none⟩ : TokenUsage) ≠ ⟨some 12, some 7⟩ := by
  decide

theorem processEventsGo_post (dec : OpenAIDec) :
    ∀ (fuel : Nat) (s s' : OpenAIState), s.buffer.length ≤ fuel →
      processEventsGo dec fuel s = some s' →
      strFindNN (utf8Lossy s'.buffer) = none := by
  intro fuel
  induction fuel with
  | zero =>
    intro s s' hlen h
    have hbuf : s.buffer = [] := List.length_eq_zero.mp (Nat.le_zero.mp hlen)
    have hs : s' = s := by simpa [processEventsGo] using h.symm
    rw [hs, hbuf]
    rfl
  | succ fuel' ih =>
    intro s s' hlen h
    simp only [processEventsGo] at h
    cases hfind : strFindNN (utf8Lossy s.buffer) with
    | none =>
      simp only [hfind] at h
      simp at h
      rw [← h]
      exact hfind
    | some pos =>
      simp only [hfind] at h
      by_cases hle : pos + 2 ≤ s.buffer.length
      · rw [if_pos hle] at h
        refine ih _ s' ?_ h
        simp only [List.length_drop]
        omega
      · rw [if_neg hle] at h
        exact absurd h (by simp)

theorem openaiFeedChunk_post {dec : OpenAIDec} {s s' : OpenAIState} {c : List Nat}
    (h : openaiFeedChunk dec s c = some s') :
    strFindNN (utf8Lossy s'.buffer) = none :=
  processEventsGo_post dec _ _ s' (le_refl _) h

theorem openaiFeedAll_post (dec : OpenAIDec) :
    ∀ (chunks : List (List Nat)) (s s' : OpenAIState),
      strFindNN (utf8Lossy s.buffer) = none →
      openaiFeedAll dec s chunks = some s' →
      strFindNN (utf8Lossy s'.buffer) = none := by
  intro chunks
  induction chunks with
  | nil =>
    intro s s' hs h
    simp [openaiFeedAll] at h
    rw [← h]
    exact hs
  | cons c cs ih =>
    intro s s' hs h
    simp only [openaiFeedAll] at h
    cases hfeed : openaiFeedChunk dec s c with
    | none => rw [hfeed] at h; simp at h
    | some s1 =>
      rw [hfeed] at h
      exact ih s1 s' (openaiFeedChunk_post hfeed) h

theorem processEvents_of_no_delim {dec : OpenAIDec} {s : OpenAIState}
    (h : strFindNN (utf8Lossy s.buffer) = none) :
    processEvents dec s = some s := by
  unfold processEvents
  cases hlen : s.buffer.length with
  | zero => rfl
  | succ n => simp [processEventsGo, h]

/-- Claim C5 (amended): `finalize` does re-run the event-block scan on the
residual buffered bytes, but the scan only extracts blocks terminated by a
double line-break; after any successful sequence of feeds the residual
buffer holds no such delimiter, so the re-scan is a no-op and a final block
missing its second trailing delimiter is never processed — `finalize`
returns the accumulator unchanged. -/
theorem openai_finalize_rescan_noop (dec : OpenAIDec) (chunks : List (List Nat))
    (s : OpenAIState) (h : openaiFeedAll dec openaiInit chunks = some s) :
    openaiFinalize dec s = some s.token_usage := by
  have hinv : strFindNN (utf8Lossy s.buffer) = none :=
    openaiFeedAll_post dec chunks openaiInit s rfl h
  unfold openaiFinalize
  rw [processEvents_of_no_delim hinv]
  rfl

/-- Witness for C5's amended theorem: after feeding the single chunk
`data: u\n`, `finalize` returns the buffered state's accumulator
unchanged. -/
theorem openai_finalize_rescan_noop_witness :
    openaiFinalize decOpenAIW ⟨strBytes "data: u" ++ [10], ⟨none, none⟩⟩ =
      some ⟨none, none⟩ :=
  openai_finalize_rescan_noop decOpenAIW [strBytes "data: u" ++ [10]]
    ⟨strBytes "data: u" ++ [10], ⟨none, none⟩⟩ (by decide)

theorem usageMono_refl (u : TokenUsage) : usageMono u u :=
  ⟨fun h => h, fun h => h⟩

theorem usageMono_trans {u v w : TokenUsage}
    (h1 : usageMono u v) (h2 : usageMono v w) : usageMono u w :=
  ⟨fun h => h2.1 (h1.1 h), fun h => h2.2 (h1.2 h)⟩

theorem updateUsage_mono (u : TokenUsage) (r : OllamaStreamResponse) :
    usageMono u (updateUsage u r) := by
  constructor <;> intro h <;> simp only [updateUsage] <;> split <;> simp_all

theorem applyOllamaLine_mono (dec : OllamaDec) (u : TokenUsage) (line : List Nat) :
    usageMono u (applyOllamaLine dec u line) := by
  simp only [applyOllamaLine]
  split
  · exact usageMono_refl u
  · split
    · split
      · exact updateUsage_mono _ _
      · exact usageMono_refl u
    · exact usageMono_refl u

theorem processLinesGo_mono (dec : OllamaDec) :
    ∀ (fuel : Nat) (u : TokenUsage) (buf : List Nat),
      usageMono u (processLinesGo dec fuel u buf).1 := by
  intro fuel
  induction fuel with
  | zero => intro u buf; exact usageMono_refl u
  | succ fuel' ih =>
    intro u buf
    simp only [processLinesGo]
    cases hsplit : splitFirstLine buf with
    | none => exact usageMono_refl u
    | some p =>
      obtain ⟨l, r⟩ := p
      exact usageMono_trans (applyOllamaLine_mono dec u l) (ih _ r)

theorem ollamaFeedChunk_mono (dec : OllamaDec) (s : OllamaState) (c : List Nat) :
    usageMono s.token_usage (ollamaFeedChunk dec s c).token_usage :=
  processLinesGo_mono dec _ s.token_usage (s.buffer ++ c)

theorem ollamaFeedAll_mono (dec : OllamaDec) :
    ∀ (chunks : List (List Nat)) (s : OllamaState),
      usageMono s.token_usage (ollamaFeedAll dec s chunks).token_usage := by
  intro chunks
  induction chunks with
  | nil => intro s; exact usageMono_refl _
  | cons c cs ih =>
    intro s
    exact usageMono_trans (ollamaFeedChunk_mono dec s c) (ih _)

theorem ollamaFinalize_mono (dec : OllamaDec) (s : OllamaState) :
    usageMono s.token_usage (ollamaFinalize dec s) := by
  simp only [ollamaFinalize]
  split
  · exact usageMono_refl _
  · split
    · split
      · exact updateUsage_mono _ _
      · exact usageMono_refl _
    · exact usageMono_refl _

theorem applyEventLine_mono (dec : OpenAIDec) (u : TokenUsage) (line : List Nat) :
    usageMono u (applyEventLine dec u line) := by
  simp only [applyEventLine]
  split
  · exact usageMono_refl u
  · split
    · exact usageMono_refl u
    · split
      · exact usageMono_refl u
      · split
        · split
          · split
            · exact ⟨fun _ => rfl, fun _ => rfl⟩
            · exact usageMono_refl u
          · exact usageMono_refl u
        · exact usageMono_refl u

theorem foldlEventLine_mono (dec : OpenAIDec) :
    ∀ (lines : List (List Nat)) (u : TokenUsage),
      usageMono u (lines.foldl (applyEventLine dec) u) := by
  intro lines
  induction lines with
  | nil => intro u; exact usageMono_refl u
  | cons l ls ih =>
    intro u
    exact usageMono_trans (applyEventLine_mono dec u l) (ih _)

theorem processBlock_mono (dec : OpenAIDec) (u : TokenUsage) (block : List Nat) :
    usageMono u (processBlock dec u block) :=
  foldlEventLine_mono dec _ u

theorem processEventsGo_mono (dec : OpenAIDec) :
    ∀ (fuel : Nat) (s s' : OpenAIState),
      processEventsGo dec fuel s = some s' →
      usageMono s.token_usage s'.token_usage := by
  intro fuel
  induction fuel with
  | zero =>
    intro s s' h
    have : s = s' := by simpa [processEventsGo] using h
    rw [this]
    exact usageMono_refl _
  | succ fuel' ih =>
    intro s s' h
    simp only [processEventsGo] at h
    cases hfind : strFindNN (utf8Lossy s.buffer) with
    | none =>
      simp only [hfind] at h
      simp at h
      rw [← h]
      exact usageMono_refl _
    | some pos =>
      simp only [hfind] at h
      by_cases hle : pos + 2 ≤ s.buffer.length
      · rw [if_pos hle] at h
        exact usageMono_trans (processBlock_mono dec s.token_usage _) (ih _ s' h)
      · rw [if_neg hle] at h
        exact absurd h (by simp)

theorem openaiFeedChunk_mono {dec : OpenAIDec} {s s' : OpenAIState} {c : List Nat}
    (h : openaiFeedChunk dec s c = some s') :
    usageMono s.token_usage s'.token_usage :=
  processEventsGo_mono dec (s.buffer ++ c).length ⟨s.buffer ++ c, s.token_usage⟩ s' h

theorem openaiFeedAll_mono (dec : OpenAIDec) :
    ∀ (chunks : List (List Nat)) (s s' : OpenAIState),
      openaiFeedAll dec s chunks = some s' →
      usageMono s.token_usage s'.token_usage := by
  intro chunks
  induction chunks with
  | nil =>
    intro s s' h
    simp [openaiFeedAll] at h
    rw [← h]
    exact usageMono_refl _
  | cons c cs ih =>
    intro s s' h
    simp only [openaiFeedAll] at h
    cases hfeed : openaiFeedChunk dec s c with
    | none => rw [hfeed] at h; simp at h
    | some s1 =>
      rw [hfeed] at h
      exact usageMono_trans (openaiFeedChunk_mono hfeed) (ih s1 s' h)

theorem openaiFinalize_mono {dec : OpenAIDec} {s : OpenAIState} {u' : TokenUsage}
    (h : openaiFinalize dec s = some u') :
    usageMono s.token_usage u' := by
  simp only [openaiFinalize, Option.map_eq_some'] at h
  obtain ⟨s', hs', hu'⟩ := h
  rw [← hu']
  exact processEventsGo_mono dec _ _ s' hs'

/-- Claim C7: for every parser variant and every sequence of feed
operations followed by finalize, a `TokenUsage` field never reverts from
present to absent: the Ollama parser's accumulator is presence-monotone
under any feed sequence and under finalize; the OpenAI parser's is
presence-monotone whenever feeding and finalizing complete without panic;
and the passthrough parser's fields are never present at all (its finalize
always returns both absent), making the property vacuous there. -/
theorem usage_presence_monotone :
    (∀ (dec : OllamaDec) (s : OllamaState) (chunks : List (List Nat)),
        usageMono s.token_usage (ollamaFeedAll dec s chunks).token_usage
        ∧ usageMono s.token_usage (ollamaFinalize dec (ollamaFeedAll dec s chunks)))
    ∧ (∀ (dec : OpenAIDec) (s : OpenAIState) (chunks : List (List Nat)) (s' : OpenAIState),
        openaiFeedAll dec s chunks = some s' →
          usageMono s.token_usage s'.token_usage
          ∧ ∀ u', openaiFinalize dec s' = some u' → usageMono s.token_usage u')
    ∧ (∀ chunks, passthroughFinalize (passthroughFeedAll () chunks) = ⟨none, none⟩) := by
  refine ⟨?_, ?_, fun _ => rfl⟩
  · intro dec s chunks
    exact ⟨ollamaFeedAll_mono dec chunks s,
      usageMono_trans (ollamaFeedAll_mono dec chunks s) (ollamaFinalize_mono dec _)⟩
  · intro dec s chunks s' h
    refine ⟨openaiFeedAll_mono dec chunks s s' h, ?_⟩
    intro u' hfin
    exact usageMono_trans (openaiFeedAll_mono dec chunks s s' h) (openaiFinalize_mono hfin)

/-- Witness for C7: `usage_presence_monotone` instantiated at concrete
decoders, states with a present field, and concrete feed sequences. -/
theorem usage_presence_monotone_witness :
    (ollamaFeedAll decOllamaW ⟨[], ⟨some 1, none⟩⟩ [[116, 10]]).token_usage.prompt_tokens.isSome = true
    ∧ (ollamaFinalize decOllamaW (ollamaFeedAll decOllamaW ⟨[], ⟨some 1, none⟩⟩ [[116, 10]])).prompt_tokens.isSome = true
    ∧ (⟨some 3, some 4⟩ : TokenUsage).prompt_tokens.isSome = true
    ∧ passthroughFinalize (passthroughFeedAll () [[1], [2]]) = ⟨none, none⟩ := by
  refine ⟨?_, ?_, ?_, ?_⟩
  · exact (usage_presence_monotone.1 decOllamaW ⟨[], ⟨some 1, none⟩⟩ [[116, 10]]).1.1 rfl
  · exact (usage_presence_monotone.1 decOllamaW ⟨[], ⟨some 1, none⟩⟩ [[116, 10]]).2.1 rfl
  · exact ((usage_presence_monotone.2.1 decOpenAIW ⟨[], ⟨some 3, some 4⟩⟩ [[100, 10, 10]]
      ⟨[], ⟨some 3, some 4⟩⟩ (by decide)).2 ⟨some 3, some 4⟩ (by decide)).1 rfl
  · exact usage_presence_monotone.2.2 [[1], [2]]

/-- Counterexample for C1: with a single upstream data frame `[49]` and a
client that has already disconnected (no send succeeds), the frame is fed
to the parser but its delivery to the client fails — the concatenation fed
to the parser is `[49]` while the concatenation delivered to the client is
empty, so the claimed equality fails on the client-disconnect exit. -/
theorem tee_byte_equality_cex :
    (teeLoop (fun (s : Unit) _ => s) [UpItem.frame (some [49])] 0 ()).fed.flatten = [49]
    ∧ (teeLoop (fun (s : Unit) _ => s) [UpItem.frame (some [49])] 0 ()).sent.flatten = []
    ∧ ([49] : List Nat) ≠ [] := by
  decide

/-- Claim C1 (amended): the ordered concatenation of bytes delivered to the
client is always a leading segment of the ordered concatenation fed to the
parser; on the normal end-of-stream and upstream-read-error exits the two
frame sequences (and hence the concatenations) are equal, while on the
client-disconnect exit the parser has additionally observed exactly the one
frame whose delivery to the client failed. -/
theorem tee_client_leading_segment {σ : Type} (feedFn : σ → List Nat → σ)
    (events : List UpItem) (d : Nat) (s : σ) :
    (∃ t, (teeLoop feedFn events d s).sent.flatten ++ t
        = (teeLoop feedFn events d s).fed.flatten)
    ∧ ((teeLoop feedFn events d s).exit ≠ TeeExit.disconnect →
        (teeLoop feedFn events d s).sent = (teeLoop feedFn events d s).fed)
    ∧ ((teeLoop feedFn events d s).exit = TeeExit.disconnect →
        ∃ f, (teeLoop feedFn events d s).fed
          = (teeLoop feedFn events d s).sent ++ [f]) := by
  induction events generalizing d s with
  | nil =>
    refine ⟨⟨[], rfl⟩, fun _ => rfl, fun h => ?_⟩
    simp [teeLoop] at h
  | cons e rest ih =>
    cases e with
    | frame data =>
      cases data with
      | none =>
        simpa [teeLoop] using ih d s
      | some c =>
        cases d with
        | zero =>
          refine ⟨⟨c, by simp [teeLoop]⟩, fun h => ?_, fun _ => ⟨c, by simp [teeLoop]⟩⟩
          simp [teeLoop] at h
        | succ d' =>
          obtain ⟨⟨t, ht⟩, heq, hdis⟩ := ih d' (feedFn s c)
          refine ⟨⟨t, ?_⟩, fun h => ?_, fun h => ?_⟩
          · simp [teeLoop, ht]
          · have h' : (teeLoop feedFn rest d' (feedFn s c)).exit ≠ TeeExit.disconnect := by
              simpa [teeLoop] using h
            simp [teeLoop, heq h']
          · have h' : (teeLoop feedFn rest d' (feedFn s c)).exit = TeeExit.disconnect := by
              simpa [teeLoop] using h
            obtain ⟨f, hf⟩ := hdis h'
            exact ⟨f, by simp [teeLoop, hf]⟩
    | uperr =>
      refine ⟨⟨[], rfl⟩, fun _ => rfl, fun h => ?_⟩
      simp [teeLoop] at h

/-- Witness for C1's amended theorem: a two-frame stream fully delivered to
a connected client has identical fed and sent frame sequences, and a
one-frame stream against a disconnected client shows the single extra
parser-only frame. -/
theorem tee_client_leading_segment_witness :
    (teeLoop (fun (s : Unit) _ => s)
        [UpItem.frame (some [49]), UpItem.frame (some [50])] 5 ()).sent
      = (teeLoop (fun (s : Unit) _ => s)
        [UpItem.frame (some [49]), UpItem.frame (some [50])] 5 ()).fed
    ∧ ∃ f, (teeLoop (fun (s : Unit) _ => s) [UpItem.frame (some [51])] 0 ()).fed
      = (teeLoop (fun (s : Unit) _ => s) [UpItem.frame (some [51])] 0 ()).sent ++ [f] := by
  constructor
  · exact (tee_client_leading_segment (fun (s : Unit) _ => s)
      [UpItem.frame (some [49]), UpItem.frame (some [50])] 5 ()).2.1 (by decide)
  · exact (tee_client_leading_segment (fun (s : Unit) _ => s)
      [UpItem.frame (some [51])] 0 ()).2.2 (by decide)

theorem teeLoop_trace_no_finalize {σ : Type} (feedFn : σ → List Nat → σ) :
    ∀ (events : List UpItem) (d : Nat) (s : σ),
      (teeLoop feedFn events d s).trace.countP isFinalizeAct = 0 := by
  intro events
  induction events with
  | nil => intro d s; rfl
  | cons e rest ih =>
    intro d s
    cases e with
    | frame data =>
      cases data with
      | none => simpa [teeLoop] using ih d s
      | some c =>
        cases d with
        | zero => simp [teeLoop, List.countP_cons, isFinalizeAct]
        | succ d' =>
          have h := ih d' (feedFn s c)
          simp [teeLoop, List.countP_cons, isFinalizeAct, h]
    | uperr => simp [teeLoop, List.countP_cons, isFinalizeAct]

/-- Claim C6: on every exit path of the tee loop — normal end of stream,
client disconnect, or upstream read error — finalize appears exactly once
in the action trace and strictly after every other action; the metrics
record is produced exactly when `RequestData` is present; and when present
it reflects the request's model and prompt, the finalized usage observed
before termination, and the measured latency and timestamp. -/
theorem tee_finalize_exactly_once {σ : Type} (feedFn : σ → List Nat → σ)
    (finFn : σ → TokenUsage) (events : List UpItem) (d : Nat) (s : σ)
    (rd : Option RequestData) (latency : Nat) (ts : String) :
    ((teeRun feedFn finFn events d s rd latency ts).1.trace.countP isFinalizeAct = 1)
    ∧ ((teeRun feedFn finFn events d s rd latency ts).1.trace.getLast?
        = some TeeAct.finalizeAct)
    ∧ ((teeRun feedFn finFn events d s rd latency ts).2.2.isSome = rd.isSome)
    ∧ ((teeRun feedFn finFn events d s rd latency ts).2.2.map (fun m =>
          (m.model, m.prompt, m.prompt_tokens, m.completion_tokens, m.latency_ms, m.timestamp))
        = rd.map (fun q =>
          (q.model, q.prompt,
           (teeRun feedFn finFn events d s rd latency ts).2.1.prompt_tokens,
           (teeRun feedFn finFn events d s rd latency ts).2.1.completion_tokens,
           latency, ts))) := by
  refine ⟨?_, ?_, ?_, ?_⟩
  · simp [teeRun, List.countP_append, teeLoop_trace_no_finalize, isFinalizeAct]
  · simp [teeRun]
  · cases rd <;> simp [teeRun]
  · cases rd <;> simp [teeRun]
